import Mathlib

/-!
# Verification of the vioreto/compiler tokenizer and parser

Shallow embedding of `src/tokenizer.ts` and `src/parser.ts`.

The tokenizer is a single left-to-right scan over the characters of the
input, maintaining an index, a line/column position, the accumulated token
list and a mutable reference to the open ("last") token.  We model the
mutable token list as the list of already-closed tokens (in reverse order)
plus an optional open token; the JS code keeps the open token inside the
array and mutates it in place, which is observationally the same.

The parser drives a stack of collectors.  Only two collector classes exist
(`AliasStatementCollector`, `StringLiteralCollector`); we represent a
collector as a record whose `node` field discriminates the class, with the
two concrete rule lists attached by that discriminant.  A thrown
`new Error()` is modelled as `Except.error ()`.
-/

namespace Vioreto

/-! ## Tokenizer data model (src/tokenizer.ts) -/

/-- `const lineFeed = 10` -/
def lineFeed : Nat := 10
/-- `const carriageReturn = 13` -/
def carriageReturn : Nat := 13
/-- `const space = 32` -/
def space : Nat := 32

/-- `isNewLine`: char code is LF or CR. -/
def isNewLine (c : Char) : Bool :=
  c.toNat == lineFeed || c.toNat == carriageReturn

/-- `isWhitespace`: char code is the single space character. -/
def isWhitespace (c : Char) : Bool :=
  c.toNat == space

/-- Character codes of the `Sign` enum values, in declaration order:
left/right parenthesis, left/right curly brace, dollar sign, grave accent,
double quotation mark, colon, number sign, slash. -/
def signList : List Nat := [40, 41, 123, 125, 36, 96, 34, 58, 35, 47]

/-- `Tokenizer.isSign`: membership of the character in the sign set. -/
def isSign (c : Char) : Bool :=
  signList.contains c.toNat

/-- Values of the `Keyword` enum, in declaration order. -/
def keywordList : List String := ["alias", "if", "else", "end", "branch", "goto"]

/-- `Tokenizer.isKeyword`: the accumulated text equals a reserved word. -/
def isKeyword (s : String) : Bool :=
  keywordList.contains s

/-- The `TokenType` enum. -/
inductive TokenType where
  | whitespace
  | word
  | keyword
  | sign
deriving DecidableEq, BEq, Repr

/-- The `Token` interface.  The source field `end` is a Lean keyword, so it
is called `endPos` here. -/
structure Token where
  type : TokenType
  value : String
  start : Nat
  endPos : Nat
  line : Nat
  col : Nat
deriving DecidableEq, BEq, Repr

/-- The mutable state of the `Tokenizer` class: scan index, position, the
closed tokens (most recent first) and the open `lastToken` (if any).  In the
JS code the open token is already inside `tokenList` and is mutated in
place; keeping it separate and appending it on output is equivalent. -/
structure TokState where
  index : Nat
  line : Nat
  col : Nat
  revTokens : List Token
  last : Option Token
deriving Repr

def initTokState : TokState := ⟨0, 0, 0, [], none⟩

/-- The retro-classification performed when a token is closed by the start
of a new token: `if (this.lastToken && this.isKeyword(this.lastToken.value))
this.lastToken.type = TokenType.Keyword`. -/
def retagKeyword (t : Token) : Token :=
  if isKeyword t.value then { t with type := TokenType.keyword } else t

/-- `Tokenizer.pushToken`.  If the open token has the same type as the new
character and that type is Whitespace or Word, the character is appended to
it; otherwise the open token is closed (with keyword retro-classification)
and a fresh single-character token is opened, advancing the column. -/
def pushToken (s : TokState) (type : TokenType) (c : Char) : TokState :=
  match s.last with
  | some lt =>
    if lt.type == type && (lt.type == TokenType.whitespace || lt.type == TokenType.word) then
      { s with
        last := some { lt with value := lt.value.push c, endPos := lt.endPos + 1 },
        index := s.index + 1 }
    else
      { index := s.index + 1, line := s.line, col := s.col + 1,
        revTokens := retagKeyword lt :: s.revTokens,
        last := some ⟨type, String.singleton c, s.index, s.index + 1, s.line, s.col⟩ }
  | none =>
      { index := s.index + 1, line := s.line, col := s.col + 1,
        revTokens := s.revTokens,
        last := some ⟨type, String.singleton c, s.index, s.index + 1, s.line, s.col⟩ }

/-- `Tokenizer.pushNewLine`, after the decision of how many characters to
consume (`skip` is 1, or 2 when the next character is a newline character
different from the current one): advance the line, reset the column, close
the open token without retro-classification. -/
def pushNewLine (s : TokState) (skip : Nat) : TokState :=
  { index := s.index + skip, line := s.line + 1, col := 0,
    revTokens := (match s.last with | some lt => lt :: s.revTokens | none => s.revTokens),
    last := none }

/-- The per-character classification of `Tokenizer.run`'s `switch`, for
characters that are not line breaks: Whitespace, then Sign, then the Word
default. -/
def charDispatch (c : Char) : TokenType :=
  if isWhitespace c then TokenType.whitespace
  else if isSign c then TokenType.sign
  else TokenType.word

/-- `Tokenizer.run`: the scan loop over the remaining characters.  On a
newline character, `pushNewLine` consumes two characters exactly when the
following character is a newline character different from the current one
(`char !== next && isNewLine(next)`); otherwise one. -/
def tokenizerRun : List Char → TokState → TokState
  | [], s => s
  | c :: rest, s =>
    if isNewLine c then
      match rest with
      | c2 :: rest2 =>
        if c != c2 && isNewLine c2 then tokenizerRun rest2 (pushNewLine s 2)
        else tokenizerRun (c2 :: rest2) (pushNewLine s 1)
      | [] => tokenizerRun [] (pushNewLine s 1)
    else
      tokenizerRun rest (pushToken s (charDispatch c) c)

/-- The token list of a tokenizer state: closed tokens in scan order
followed by the open token.  This matches the JS `tokenList`, in which the
open token already sits at the end. -/
def tokensOf (s : TokState) : List Token :=
  s.revTokens.reverse ++ (match s.last with | some t => [t] | none => [])

/-- `export function tokenizer(input)`.  Total: the scan has no error
path. -/
def tokenizer (input : String) : List Token :=
  tokensOf (tokenizerRun input.data initTokState)

/-! ## Parser data model (src/parser.ts) -/

/-- The `StringLiteral` node. -/
structure StringLiteral where
  value : String
deriving DecidableEq, BEq, Repr

/-- The `AliasLiteral` node. -/
structure AliasLiteral where
  value : String
deriving DecidableEq, BEq, Repr

/-- The `PackedStatement` node. -/
structure PackedStatement where
  value : String
  body : StringLiteral
deriving DecidableEq, BEq, Repr

/-- The `AliasStatement` node: its `body` is the fixed pair
`[AliasLiteral, PackedStatement]`. -/
structure AliasStatement where
  aliasLit : AliasLiteral
  packed : PackedStatement
deriving DecidableEq, BEq, Repr

/-- The `node` of a collector; the discriminant also identifies which
concrete collector class (`AliasStatementCollector` or
`StringLiteralCollector`) the record represents. -/
inductive CNode where
  | aliasN (a : AliasStatement)
  | stringN (s : StringLiteral)
deriving DecidableEq, BEq, Repr

/-- The `Program` root node; its body receives the nodes of completed
top-level collectors. -/
structure Program where
  body : List CNode
deriving DecidableEq, BEq, Repr

/-- A `CollectorRule`: a predicate over the token, or (for the one rule
`() => new StringLiteralCollector()`) a factory spawning the nested string
literal collector. -/
inductive Rule where
  | pred (p : Token → Bool)
  | spawnString

/-- The state of a `Collector`: buffered matched tokens, rule cursor,
completion flag, the whitespace-skipping policy (true in the base class and
not overridden by either subclass) and the node under construction. -/
structure Collector where
  tokenList : List Token := []
  index : Nat := 0
  complete : Bool := false
  skipWhitespace : Bool := true
  node : CNode

/-- `StringLiteralCollector.ruleList`: double quote, Word, double quote. -/
def stringRules : List Rule :=
  [ .pred (fun t => t.value == "\""),
    .pred (fun t => t.type == TokenType.word),
    .pred (fun t => t.value == "\"") ]

/-- `AliasStatementCollector.ruleList`: the `alias` keyword value, a Word,
the number sign, a Word, a left parenthesis, the spawned string literal
collector, a right parenthesis. -/
def aliasRules : List Rule :=
  [ .pred (fun t => t.value == "alias"),
    .pred (fun t => t.type == TokenType.word),
    .pred (fun t => t.value == "#"),
    .pred (fun t => t.type == TokenType.word),
    .pred (fun t => t.value == "("),
    .spawnString,
    .pred (fun t => t.value == ")") ]

/-- The rule list attached to a collector, by its class. -/
def ruleListOf (c : Collector) : List Rule :=
  match c.node with
  | .aliasN _ => aliasRules
  | .stringN _ => stringRules

/-- A fresh `AliasStatementCollector`, with its pre-initialised node. -/
def AliasStatementCollector : Collector :=
  { node := .aliasN ⟨⟨""⟩, ⟨"", ⟨""⟩⟩⟩ }

/-- A fresh `StringLiteralCollector`, with its pre-initialised node. -/
def StringLiteralCollector : Collector :=
  { node := .stringN ⟨""⟩ }

/-- The outcome of `Collector.next` on a token: the updated collector,
a spawned nested collector returned to the driver, or the thrown
`new Error()`. -/
inductive NextResult where
  | normal (c : Collector)
  | spawned (child : Collector)
  | error

/-- `Collector.next` on a token: skip whitespace; evaluate the rule at the
cursor; a spawned collector is returned without consuming the token or
advancing the cursor; a matching token is buffered, completes the collector
when the cursor is at the last rule, and advances the cursor; a mismatch
throws.  A missing rule (cursor past the end) corresponds to the JS
non-null assertion failing at run time and is also an error. -/
def next (c : Collector) (t : Token) : NextResult :=
  if c.skipWhitespace && t.type == TokenType.whitespace then .normal c
  else
    match (ruleListOf c).get? c.index with
    | none => .error
    | some .spawnString => .spawned StringLiteralCollector
    | some (.pred p) =>
      if p t then
        let c1 := { c with tokenList := c.tokenList ++ [t] }
        let c2 := if c1.index == (ruleListOf c1).length - 1 then { c1 with complete := true } else c1
        .normal { c2 with index := c2.index + 1 }
      else .error

/-- `pushCollector`: the alias collector receiving a completed string
literal collector assigns the nested node's value as
`packed.body.value`; the base-class hook does nothing. -/
def pushCollector (parent child : Collector) : Collector :=
  match parent.node, child.node with
  | .aliasN a, .stringN s =>
    { parent with node := .aliasN ⟨a.aliasLit, ⟨a.packed.value, s⟩⟩ }
  | _, _ => parent

/-- `Collector.next` on a completed nested collector: run the
`pushCollector` hook and advance the cursor (no completion check is made on
this path in the source). -/
def nextCollector (parent child : Collector) : Collector :=
  let merged := pushCollector parent child
  { merged with index := merged.index + 1 }

/-- `compose`: derive the node's final field values from the buffered
tokens.  The alias collector keeps the first two Word-typed buffered tokens
(alias name then packed name); the string literal collector keeps the value
of the buffered token at position 1.  A completed collector always holds
the tokens these accesses need, so the default `""` of the `Option`
projection models the source's non-null assertions on a path that cannot
fail for completed collectors. -/
def compose (c : Collector) : Collector :=
  match c.node with
  | .aliasN a =>
    let words := c.tokenList.filter (fun t => t.type == TokenType.word)
    let aliasValue := ((words.get? 0).map Token.value).getD ""
    let packedValue := ((words.get? 1).map Token.value).getD ""
    { c with node := .aliasN ⟨⟨aliasValue⟩, ⟨packedValue, a.packed.body⟩⟩ }
  | .stringN _ =>
    let value := ((c.tokenList.get? 1).map Token.value).getD ""
    { c with node := .stringN ⟨value⟩ }

/-- The completion handling of one driver iteration, after the top
collector has been fed: if it is complete, compose it, pop it, and either
merge it into the collector below (which becomes current) or append its
node to the program body. -/
def afterFeed (c : Collector) (below : List Collector) (body : List CNode) :
    List Collector × List CNode :=
  if c.complete then
    let c2 := compose c
    match below with
    | parent :: below2 => (nextCollector parent c2 :: below2, body)
    | [] => ([], body ++ [c2.node])
  else (c :: below, body)

/-- Feeding one token to the top collector, including the driver's
spawn handling: a spawned collector is pushed and the same token is
replayed into it (the cursor rewind in the source).  The spawned collector
is always the string literal collector, whose rules are all predicates, so
a second spawn on the replay is unreachable; it is mapped to an error. -/
def feedCollector (top : Collector) (below : List Collector) (body : List CNode)
    (t : Token) : Except Unit (List Collector × List CNode) :=
  match next top t with
  | .error => .error ()
  | .spawned child =>
    match next child t with
    | .error => .error ()
    | .spawned _ => .error ()
    | .normal c1 => .ok (afterFeed c1 (top :: below) body)
  | .normal c1 => .ok (afterFeed c1 below body)

/-- One iteration of `Parser.run` for one token: with an empty collector
stack, only a token whose value is `alias` starts a new
`AliasStatementCollector` (and the token is replayed into it); any other
token is silently dropped.  With a non-empty stack the token is fed to the
top collector. -/
def stepToken (stack : List Collector) (body : List CNode) (t : Token) :
    Except Unit (List Collector × List CNode) :=
  match stack with
  | [] =>
    if t.value == "alias" then feedCollector AliasStatementCollector [] body t
    else .ok ([], body)
  | top :: below => feedCollector top below body t

/-- The driver loop of `Parser.run`: process the tokens in order; when the
tokens are exhausted the accumulated program body is returned as is (the
source performs no check of the collector stack at end of input). -/
def parserRun : List Token → List Collector → List CNode → Except Unit (List CNode)
  | [], _stack, body => .ok body
  | t :: rest, stack, body =>
    match stepToken stack body t with
    | .error e => .error e
    | .ok (stack2, body2) => parserRun rest stack2 body2

/-- `export function parser(tokenList)`: run the driver from an empty stack
and wrap the body into the `Program` node.  A thrown `new Error()` is the
`Except.error` case. -/
def parser (tokenList : List Token) : Except Unit Program :=
  (parserRun tokenList [] []).map Program.mk

/-! ## Helper lemmas -/

/-- Derived `BEq` on `TokenType` agrees with decidable equality. -/
@[simp]
theorem tokenType_beq (a b : TokenType) : (a == b) = decide (a = b) := by
  cases a <;> cases b <;> rfl

/-! ## Claim C1 -/

/-- C1, counterexample.  The claim asserts that
`parse(tokenize("alias foo #1 bar(\"baz\")"))` succeeds with an
`AliasStatement`; on the code it throws: the grammar's rule after the Word
following `#` is `Sign("(")`, so the token `bar` fails that rule.  Here the
parse of the claimed input returns the error, not a `Program`. -/
theorem c1_counterexample :
    parser (tokenizer "alias foo #1 bar(\"baz\")") = .error () := by rfl

/-- C1, amended.  The rule sequence of `AliasStatementCollector` has no
slot for a separate Word between `#<n>` and `(`: on the claimed input
`alias foo #1 bar("baz")` the parse fails with a grammar mismatch, while on
`alias foo #bar("baz")` it returns a `Program` whose body is exactly one
`AliasStatement` with `AliasLiteral.value = "foo"`,
`PackedStatement.value = "bar"` and a `StringLiteral` body `"baz"`. -/
theorem c1_amended :
    parser (tokenizer "alias foo #1 bar(\"baz\")") = .error () ∧
    parser (tokenizer "alias foo #bar(\"baz\")") =
      .ok ⟨[.aliasN ⟨⟨"foo"⟩, ⟨"bar", ⟨"baz"⟩⟩⟩]⟩ := by
  exact ⟨by rfl, by rfl⟩

/-! ## Claim C3 -/

/-- C3, counterexample.  The claim asserts that reaching the end of the
tokens with a non-empty collector stack (the tokens of `"alias foo"`) fails
fatally with an incomplete-statement error.  On the code `Parser.run`
performs no such check: it returns the `Program` built so far, here with an
empty body, and no error is raised. -/
theorem c3_counterexample :
    parser (tokenizer "alias foo") = .ok ⟨[]⟩ := by rfl

/-- C3, amended.  When the driver exhausts the token sequence, it returns
the accumulated program body unconditionally, whether or not the collector
stack is still non-empty: an incomplete trailing statement is silently
dropped, and no error is raised.  In particular an `alias` keyword token
followed by a single Word token parses to a `Program` with an empty
body. -/
theorem c3_amended :
    (∀ (stack : List Collector) (body : List CNode), parserRun [] stack body = .ok body) ∧
    (∀ a w : Token, a.value = "alias" → a.type = TokenType.keyword →
      w.type = TokenType.word → parser [a, w] = .ok ⟨[]⟩) := by
  refine ⟨fun stack body => rfl, fun a w ha hat hw => ?_⟩
  simp [parser, parserRun, stepToken, feedCollector, next, afterFeed, ruleListOf,
    AliasStatementCollector, aliasRules, ha, hat, hw, Except.map]

/-- C3, witness for the amended theorem at a concrete input. -/
theorem c3_amended_witness :
    parser [⟨TokenType.keyword, "alias", 0, 5, 0, 0⟩, ⟨TokenType.word, "foo", 6, 9, 0, 1⟩] =
      .ok ⟨[]⟩ :=
  c3_amended.2 ⟨TokenType.keyword, "alias", 0, 5, 0, 0⟩ ⟨TokenType.word, "foo", 6, 9, 0, 1⟩
    rfl rfl rfl

/-! ## Claim C8 -/

/-- C8, confirmed.  Whenever a non-Whitespace token is fed to the active
collector (the top of a non-empty stack) and the rule at the collector's
cursor is a predicate the token fails, the whole parse aborts immediately
with the fatal error: no program is returned, the remaining tokens are
never examined (no alternative rule, no backtracking). -/
theorem c8_mismatch_aborts (top : Collector) (below : List Collector) (body : List CNode)
    (t : Token) (rest : List Token) (p : Token → Bool)
    (hws : t.type ≠ TokenType.whitespace)
    (hrule : (ruleListOf top)[top.index]? = some (.pred p))
    (hfail : p t = false) :
    parserRun (t :: rest) (top :: below) body = .error () := by
  simp [parserRun, stepToken, feedCollector, next, hws, hrule, hfail]

/-- C8, witness: a right-parenthesis token fed to a fresh alias collector
fails its first rule and aborts the parse at once. -/
theorem c8_mismatch_aborts_witness :
    parserRun [⟨TokenType.sign, ")", 0, 1, 0, 0⟩, ⟨TokenType.word, "x", 1, 2, 0, 1⟩]
      [AliasStatementCollector] [] = .error () :=
  c8_mismatch_aborts AliasStatementCollector [] [] ⟨TokenType.sign, ")", 0, 1, 0, 0⟩
    [⟨TokenType.word, "x", 1, 2, 0, 1⟩] (fun t => t.value == "alias")
    (by decide) rfl rfl

/-! ## Claim C9 -/

/-- C9, confirmed.  A token sequence containing no token whose value is
`alias` leaves the parser in top-level dispatch throughout: every token is
silently consumed, no collector is ever started, and the parse succeeds
with an empty program body. -/
theorem c9_no_alias (ts : List Token) (h : ∀ t ∈ ts, t.value ≠ "alias") :
    parser ts = .ok ⟨[]⟩ := by
  have go : ∀ (l : List Token), (∀ t ∈ l, t.value ≠ "alias") →
      ∀ body, parserRun l [] body = .ok body := by
    intro l
    induction l with
    | nil => intro _ body; rfl
    | cons t rest ih =>
      intro hl body
      have ht : t.value ≠ "alias" := hl t (List.mem_cons_self t rest)
      have hrest : ∀ u ∈ rest, u.value ≠ "alias" := fun u hu => hl u (List.mem_cons_of_mem t hu)
      simp [parserRun, stepToken, ht, ih hrest body]
  simp [parser, go ts h [], Except.map]

/-- C9, witness at a concrete alias-free token sequence. -/
theorem c9_no_alias_witness :
    parser [⟨TokenType.word, "xyz", 0, 3, 0, 0⟩, ⟨TokenType.sign, "(", 3, 4, 0, 1⟩] =
      .ok ⟨[]⟩ :=
  c9_no_alias [⟨TokenType.word, "xyz", 0, 3, 0, 0⟩, ⟨TokenType.sign, "(", 3, 4, 0, 1⟩]
    (by intro t ht
        simp only [List.mem_cons, List.not_mem_nil, or_false] at ht
        rcases ht with rfl | rfl <;> decide)

/-! ## Claim C10 -/

/-- Closing the open token on a newline does not change the number of
tokens (the open token was already part of the token list). -/
theorem tokensOf_pushNewLine_length (s : TokState) (k : Nat) :
    (tokensOf (pushNewLine s k)).length = (tokensOf s).length := by
  cases h : s.last <;> simp [tokensOf, pushNewLine, h]

/-- Each scanned character adds at most one token. -/
theorem tokensOf_pushToken_length (s : TokState) (ty : TokenType) (c : Char) :
    (tokensOf (pushToken s ty c)).length ≤ (tokensOf s).length + 1 := by
  cases h : s.last with
  | none => simp [tokensOf, pushToken, h]
  | some lt =>
    simp only [tokensOf, pushToken, h]
    split <;> simp

/-- The scan produces at most one token per input character. -/
theorem tokenizerRun_length (cs : List Char) (s : TokState) :
    (tokensOf (tokenizerRun cs s)).length ≤ (tokensOf s).length + cs.length := by
  induction cs, s using tokenizerRun.induct with
  | case1 s => simp [tokenizerRun]
  | case2 c s h c2 rest2 h2 ih =>
    rw [tokenizerRun.eq_def]
    simp only [h, h2, if_true, List.length_cons]
    have hlen := tokensOf_pushNewLine_length s 2
    omega
  | case3 c s h c2 rest2 h2 ih =>
    rw [tokenizerRun.eq_def]
    simp only [h, if_true, List.length_cons]
    rw [if_neg h2]
    have hlen := tokensOf_pushNewLine_length s 1
    simp only [List.length_cons] at ih
    omega
  | case4 c s h ih =>
    rw [tokenizerRun.eq_def]
    simp only [h, if_true, List.length_cons]
    have hlen := tokensOf_pushNewLine_length s 1
    simp only [tokenizerRun]
    omega
  | case5 c rest s h ih =>
    rw [tokenizerRun.eq_def]
    simp only [Bool.not_eq_true] at h
    simp only [h, Bool.false_eq_true, if_false, List.length_cons]
    have hlen := tokensOf_pushToken_length s (charDispatch c) c
    omega

/-- C10, confirmed.  The scan is a total Lean function (the source has no
error path), every character that is not a line break falls into exactly
one of the three `switch` classes — Whitespace, Sign, or the Word default —
and, as a totality observable, the scan emits at most one token per input
character. -/
theorem c10_total_classification :
    (∀ c : Char, isNewLine c = false →
      (charDispatch c = TokenType.whitespace ∧ isWhitespace c = true ∧ isSign c = false) ∨
      (charDispatch c = TokenType.sign ∧ isSign c = true ∧ isWhitespace c = false) ∨
      (charDispatch c = TokenType.word ∧ isWhitespace c = false ∧ isSign c = false)) ∧
    (∀ input : String, (tokenizer input).length ≤ input.length) := by
  constructor
  · intro c _hnl
    by_cases hw : isWhitespace c = true
    · have hnat : c.toNat = 32 := by simpa [isWhitespace, space] using hw
      have hs : isSign c = false := by
        show signList.contains c.toNat = false
        rw [hnat]; decide
      exact Or.inl ⟨by simp [charDispatch, hw], hw, hs⟩
    · have hw2 : isWhitespace c = false := by simpa using hw
      by_cases hs : isSign c = true
      · exact Or.inr (Or.inl ⟨by simp [charDispatch, hw2, hs], hs, hw2⟩)
      · have hs2 : isSign c = false := by simpa using hs
        exact Or.inr (Or.inr ⟨by simp [charDispatch, hw2, hs2], hw2, hs2⟩)
  · intro input
    have h := tokenizerRun_length input.data initTokState
    have h0 : (tokensOf initTokState).length = 0 := rfl
    have h3 : input.length = input.data.length := rfl
    show (tokensOf (tokenizerRun input.data initTokState)).length ≤ input.length
    omega

/-- C10, witness: the classification applied to the concrete character
`a`. -/
theorem c10_total_classification_witness :
    (charDispatch 'a' = TokenType.whitespace ∧ isWhitespace 'a' = true ∧ isSign 'a' = false) ∨
    (charDispatch 'a' = TokenType.sign ∧ isSign 'a' = true ∧ isWhitespace 'a' = false) ∨
    (charDispatch 'a' = TokenType.word ∧ isWhitespace 'a' = false ∧ isSign 'a' = false) :=
  c10_total_classification.1 'a' rfl

/-! ## Claim C5 -/

/-- Modelled from the claim's own words, for comparison: one line break is
a lone LF, or a CR optionally followed by LF.  Under this counting an LF
immediately followed by a CR is two line breaks. -/
def claimLineBreaks : List Char → Nat
  | [] => 0
  | c :: rest =>
    if c.toNat == lineFeed then claimLineBreaks rest + 1
    else if c.toNat == carriageReturn then
      match rest with
      | c2 :: rest2 =>
        if c2.toNat == lineFeed then claimLineBreaks rest2 + 1
        else claimLineBreaks (c2 :: rest2) + 1
      | [] => 1
    else claimLineBreaks rest

/-- Line-break counting as the code performs it: a newline character
followed by a different newline character consumes both as one break
(so CR LF and LF CR are each one break); otherwise one character is one
break. -/
def amendedLineBreaks : List Char → Nat
  | [] => 0
  | c :: rest =>
    if isNewLine c then
      match rest with
      | c2 :: rest2 =>
        if c != c2 && isNewLine c2 then amendedLineBreaks rest2 + 1
        else amendedLineBreaks (c2 :: rest2) + 1
      | [] => 1
    else amendedLineBreaks rest

/-- C5, counterexample.  Under the claim's counting, `"\n\r"` holds two
line breaks (a lone LF, then a CR not followed by LF), so in
`tokenize("\n\ra")` the token `a` would sit on line 2; the code consumes
the LF CR pair as a single break and places `a` on line 1. -/
theorem c5_counterexample :
    claimLineBreaks "\n\ra".data = 2 ∧
    tokenizer "\n\ra" = [⟨TokenType.word, "a", 2, 3, 1, 0⟩] := by
  exact ⟨by rfl, by rfl⟩

/-- Helper: a scan over newline characters only, starting with no open
token, closes nothing and emits nothing. -/
theorem tokenizerRun_all_newline (cs : List Char) (s : TokState) :
    cs.all isNewLine = true → s.last = none →
    (tokenizerRun cs s).revTokens = s.revTokens ∧ (tokenizerRun cs s).last = none := by
  induction cs, s using tokenizerRun.induct with
  | case1 s => exact fun _ hl => ⟨rfl, hl⟩
  | case2 c s h c2 rest2 h2 ih =>
    intro hall hl
    rw [tokenizerRun.eq_def]
    simp only [h, h2, if_true]
    have hall2 : rest2.all isNewLine = true := by
      simp only [List.all_cons, Bool.and_eq_true] at hall
      exact hall.2.2
    have := ih hall2 (by simp [pushNewLine])
    simpa [pushNewLine, hl] using this
  | case3 c s h c2 rest2 h2 ih =>
    intro hall hl
    rw [tokenizerRun.eq_def]
    simp only [h, if_true]
    rw [if_neg h2]
    have hall2 : (c2 :: rest2).all isNewLine = true := by
      simp only [List.all_cons, Bool.and_eq_true] at hall
      simp [hall.2.1, hall.2.2]
    have := ih hall2 (by simp [pushNewLine])
    simpa [pushNewLine, hl] using this
  | case4 c s h ih =>
    intro _ hl
    rw [tokenizerRun.eq_def]
    simp only [h, if_true]
    simp [tokenizerRun, pushNewLine, hl]
  | case5 c rest s h ih =>
    intro hall _
    simp only [List.all_cons, Bool.and_eq_true] at hall
    exact absurd hall.1 h

/-- Helper: one scanned line break resets the column to zero, and
subsequent newline-only input keeps it there. -/
theorem tokenizerRun_all_newline_col (cs : List Char) (s : TokState) :
    cs ≠ [] → cs.all isNewLine = true → (tokenizerRun cs s).col = 0 := by
  induction cs, s using tokenizerRun.induct with
  | case1 s => intro h; exact absurd rfl h
  | case2 c s h c2 rest2 h2 ih =>
    intro _ hall
    rw [tokenizerRun.eq_def]
    simp only [h, h2, if_true]
    rcases Decidable.em (rest2 = []) with h0 | h0
    · subst h0; simp [tokenizerRun, pushNewLine]
    · have hall2 : rest2.all isNewLine = true := by
        simp only [List.all_cons, Bool.and_eq_true] at hall
        exact hall.2.2
      exact ih h0 hall2
  | case3 c s h c2 rest2 h2 ih =>
    intro _ hall
    rw [tokenizerRun.eq_def]
    simp only [h, if_true]
    rw [if_neg h2]
    have hall2 : (c2 :: rest2).all isNewLine = true := by
      simp only [List.all_cons, Bool.and_eq_true] at hall
      simp [hall.2.1, hall.2.2]
    exact ih (by simp) hall2
  | case4 c s h ih =>
    intro _ _
    rw [tokenizerRun.eq_def]
    simp only [h, if_true]
    simp [tokenizerRun, pushNewLine]
  | case5 c rest s h ih =>
    intro _ hall
    simp only [List.all_cons, Bool.and_eq_true] at hall
    exact absurd hall.1 h

/-- Helper: scanning a non-newline character never changes the line
counter. -/
theorem pushToken_line (s : TokState) (ty : TokenType) (c : Char) :
    (pushToken s ty c).line = s.line := by
  cases h : s.last with
  | none => simp [pushToken, h]
  | some lt =>
    simp only [pushToken, h]
    split <;> rfl

/-- C5, amended.  The code treats as one line break: a lone LF, a lone CR,
or a newline character followed by a *different* newline character (CR LF
and LF CR each count once; two equal adjacent newline characters count
twice).  Each break increments the line counter by exactly one
(`amendedLineBreaks` counts breaks this way), emits no token, and resets
the column to zero. -/
theorem c5_amended :
    (∀ (cs : List Char) (s : TokState),
      (tokenizerRun cs s).line = s.line + amendedLineBreaks cs) ∧
    (∀ input : String, input.data.all isNewLine = true → tokenizer input = []) ∧
    (∀ (cs : List Char) (s : TokState), cs ≠ [] → cs.all isNewLine = true →
      (tokenizerRun cs s).col = 0) := by
  refine ⟨?_, ?_, tokenizerRun_all_newline_col⟩
  · intro cs s
    induction cs, s using tokenizerRun.induct with
    | case1 s => simp [tokenizerRun, amendedLineBreaks]
    | case2 c s h c2 rest2 h2 ih =>
      rw [tokenizerRun.eq_def, amendedLineBreaks.eq_def]
      simp only [h, h2, if_true]
      rw [ih]
      simp [pushNewLine]
      omega
    | case3 c s h c2 rest2 h2 ih =>
      rw [tokenizerRun.eq_def, amendedLineBreaks.eq_def]
      simp only [h, if_true]
      rw [if_neg h2, if_neg h2]
      rw [ih]
      simp [pushNewLine]
      omega
    | case4 c s h ih =>
      rw [tokenizerRun.eq_def, amendedLineBreaks.eq_def]
      simp only [h, if_true]
      simp [tokenizerRun, pushNewLine]
    | case5 c rest s h ih =>
      rw [tokenizerRun.eq_def, amendedLineBreaks.eq_def]
      simp only [Bool.not_eq_true] at h
      simp only [h, Bool.false_eq_true, if_false]
      rw [ih, pushToken_line]
  · intro input hall
    have h2 := tokenizerRun_all_newline input.data initTokState hall rfl
    simp only [initTokState] at h2
    simp [tokenizer, tokensOf, initTokState, h2.1, h2.2]

/-- C5, witness for the amended theorem: concrete line counts, the
token-free all-newline scan, and the column reset. -/
theorem c5_amended_witness :
    (tokenizerRun "\n\r".data initTokState).line =
      initTokState.line + amendedLineBreaks "\n\r".data ∧
    tokenizer "\r\n" = [] ∧
    (tokenizerRun "\n\n".data initTokState).col = 0 :=
  ⟨c5_amended.1 "\n\r".data initTokState,
   c5_amended.2.1 "\r\n" rfl,
   c5_amended.2.2 "\n\n".data initTokState (by simp) rfl⟩

/-! ## Claim C6 -/

/-- The characters held by the tokens of a state, in scan order. -/
def valueChars (s : TokState) : List Char :=
  ((tokensOf s).map (fun t => t.value.data)).flatten

/-- Keyword retro-classification changes only the type, never the text. -/
theorem retagKeyword_value (t : Token) : (retagKeyword t).value = t.value := by
  unfold retagKeyword
  split <;> rfl

/-- Each scanned non-newline character lands at the end of the held
characters, whether it extends the open token or opens a new one. -/
theorem valueChars_pushToken (s : TokState) (ty : TokenType) (c : Char) :
    valueChars (pushToken s ty c) = valueChars s ++ [c] := by
  cases h : s.last with
  | none => simp [valueChars, tokensOf, pushToken, h, String.singleton]
  | some lt =>
    simp only [valueChars, tokensOf, pushToken, h]
    split
    · have hpush : (lt.value.push c).data = lt.value.data ++ [c] := rfl
      simp [hpush]
    · have hsing : (String.singleton c).data = [c] := rfl
      simp [retagKeyword_value, hsing]

/-- Closing the open token on a line break preserves the held
characters. -/
theorem valueChars_pushNewLine (s : TokState) (k : Nat) :
    valueChars (pushNewLine s k) = valueChars s := by
  cases h : s.last <;> simp [valueChars, tokensOf, pushNewLine, h]

/-- The scan accumulates exactly the non-newline characters, in order. -/
theorem valueChars_run (cs : List Char) (s : TokState) :
    valueChars (tokenizerRun cs s) =
      valueChars s ++ cs.filter (fun c => !isNewLine c) := by
  induction cs, s using tokenizerRun.induct with
  | case1 s => simp [tokenizerRun]
  | case2 c s h c2 rest2 h2 ih =>
    rw [tokenizerRun.eq_def]
    simp only [h, h2, if_true]
    rw [ih, valueChars_pushNewLine]
    have hc2 : isNewLine c2 = true := by
      simp only [Bool.and_eq_true] at h2
      exact h2.2
    simp [List.filter_cons, h, hc2]
  | case3 c s h c2 rest2 h2 ih =>
    rw [tokenizerRun.eq_def]
    simp only [h, if_true]
    rw [if_neg h2]
    rw [ih, valueChars_pushNewLine]
    simp [List.filter_cons, h]
  | case4 c s h ih =>
    rw [tokenizerRun.eq_def]
    simp only [h, if_true]
    simp [tokenizerRun, valueChars_pushNewLine, List.filter_cons, h]
  | case5 c rest s h ih =>
    rw [tokenizerRun.eq_def]
    simp only [Bool.not_eq_true] at h
    simp only [h, Bool.false_eq_true, if_false]
    rw [ih, valueChars_pushToken]
    simp [List.filter_cons, h, List.append_assoc]

/-- Folding string concatenation accumulates the character data. -/
theorem foldl_append_data (l : List String) (a : String) :
    (l.foldl (fun r s => r ++ s) a).data = a.data ++ (l.map String.data).flatten := by
  induction l generalizing a with
  | nil => simp
  | cons x xs ih => simp [List.foldl_cons, ih]

/-- C6, confirmed.  Concatenating the `value` texts of the tokens of
`tokenize`, in output order, reconstructs the input with every line-break
character (LF and CR) removed. -/
theorem c6_reconstruction (input : String) :
    String.join ((tokenizer input).map Token.value) =
      String.mk (input.data.filter (fun c => !isNewLine c)) := by
  have hdata : (String.join ((tokenizer input).map Token.value)).data =
      input.data.filter (fun c => !isNewLine c) := by
    have h1 : (String.join ((tokenizer input).map Token.value)).data =
        (((tokenizer input).map Token.value).map String.data).flatten := by
      simp [String.join, foldl_append_data]
    rw [h1, List.map_map]
    have h2 := valueChars_run input.data initTokState
    have h3 : valueChars initTokState = [] := rfl
    rw [h3] at h2
    simpa [valueChars, tokenizer, Function.comp] using h2
  cases hs : String.join ((tokenizer input).map Token.value) with
  | mk data =>
    rw [hs] at hdata
    simp only [String.data] at hdata
    exact congrArg String.mk hdata

/-! ## Claim C2 -/

/-- One driver iteration, unfolded on a successful step. -/
theorem parserRun_cons_ok {stack : List Collector} {body : List CNode} {t : Token}
    {s2 : List Collector} {b2 : List CNode}
    (h : stepToken stack body t = .ok (s2, b2)) (l : List Token) :
    parserRun (t :: l) stack body = parserRun l s2 b2 := by
  simp [parserRun, h]

/-- One driver iteration, unfolded on a failing step. -/
theorem parserRun_cons_err {stack : List Collector} {body : List CNode} {t : Token}
    (h : stepToken stack body t = .error ()) (l : List Token) :
    parserRun (t :: l) stack body = .error () := by
  simp [parserRun, h]

/-- A whitespace token fed to an active, incomplete, whitespace-skipping
collector changes nothing. -/
theorem stepToken_ws (top : Collector) (below : List Collector) (body : List CNode)
    (t : Token) (ht : t.type = TokenType.whitespace) (hsw : top.skipWhitespace = true)
    (hc : top.complete = false) :
    stepToken (top :: below) body t = .ok (top :: below, body) := by
  simp [stepToken, feedCollector, next, afterFeed, ht, hsw, hc]

/-- A run of whitespace tokens in front of an active, incomplete,
whitespace-skipping collector is skipped entirely. -/
theorem parserRun_ws_prefix (ws : List Token)
    (hws : ∀ t ∈ ws, t.type = TokenType.whitespace)
    (top : Collector) (below : List Collector) (hsw : top.skipWhitespace = true)
    (hc : top.complete = false) (rest : List Token) (body : List CNode) :
    parserRun (ws ++ rest) (top :: below) body = parserRun rest (top :: below) body := by
  induction ws with
  | nil => rfl
  | cons t l ih =>
    have ht := hws t (List.mem_cons_self t l)
    rw [List.cons_append, parserRun_cons_ok (stepToken_ws top below body t ht hsw hc)]
    exact ih (fun u hu => hws u (List.mem_cons_of_mem t hu))

/-- Trailing whitespace tokens after the last completed statement leave the
program body unchanged (even a whitespace token whose value is `alias`
merely opens a collector that is then dropped at end of input). -/
theorem parserRun_ws_empty (ws : List Token)
    (hws : ∀ t ∈ ws, t.type = TokenType.whitespace) (body : List CNode) :
    parserRun ws [] body = .ok body := by
  cases ws with
  | nil => rfl
  | cons t l =>
    have ht := hws t (List.mem_cons_self t l)
    have hl : ∀ u ∈ l, u.type = TokenType.whitespace :=
      fun u hu => hws u (List.mem_cons_of_mem t hu)
    by_cases hv : t.value = "alias"
    · have hstep : stepToken [] body t = .ok ([AliasStatementCollector], body) := by
        simp [stepToken, hv, feedCollector, next, afterFeed, AliasStatementCollector, ht]
      rw [parserRun_cons_ok hstep, ← List.append_nil l,
        parserRun_ws_prefix l hl AliasStatementCollector [] rfl rfl [] body]
      rfl
    · have hstep : stepToken [] body t = .ok ([], body) := by
        simp [stepToken, hv]
      rw [parserRun_cons_ok hstep]
      exact parserRun_ws_empty l hl body

/-- C2, confirmed.  Every token sequence of the exact shape
`Keyword "alias"`, Word `w1`, `Sign "#"`, Word `w2`, `Sign "("`,
`Sign "\""`, Word `w3`, `Sign "\""`, `Sign ")"`, with Whitespace tokens
interleaved anywhere after the first token (including trailing ones),
parses to a `Program` whose body is one `AliasStatement` with
`AliasLiteral.value` = `w1`'s text, `PackedStatement.value` = `w2`'s text
(the Word immediately after `#`), and `StringLiteral.value` = `w3`'s text;
and the grammar accepts no separate packed-name Word between the `#<n>`
part and `(`: any Word token other than a `(`-valued one in that position
makes the parse fail no matter what follows. -/
theorem c2_alias_shape
    (tA tW1 tH tW2 tLP tQ1 tW3 tQ2 tRP : Token)
    (ws1 ws2 ws3 ws4 ws5 ws6 ws7 ws8 ws9 : List Token)
    (htAv : tA.value = "alias") (htAt : tA.type = TokenType.keyword)
    (h1 : tW1.type = TokenType.word)
    (hHt : tH.type = TokenType.sign) (hHv : tH.value = "#")
    (h2 : tW2.type = TokenType.word)
    (hLPt : tLP.type = TokenType.sign) (hLPv : tLP.value = "(")
    (hQ1t : tQ1.type = TokenType.sign) (hQ1v : tQ1.value = "\"")
    (h3 : tW3.type = TokenType.word)
    (hQ2t : tQ2.type = TokenType.sign) (hQ2v : tQ2.value = "\"")
    (hRPt : tRP.type = TokenType.sign) (hRPv : tRP.value = ")")
    (hws1 : ∀ t ∈ ws1, t.type = TokenType.whitespace)
    (hws2 : ∀ t ∈ ws2, t.type = TokenType.whitespace)
    (hws3 : ∀ t ∈ ws3, t.type = TokenType.whitespace)
    (hws4 : ∀ t ∈ ws4, t.type = TokenType.whitespace)
    (hws5 : ∀ t ∈ ws5, t.type = TokenType.whitespace)
    (hws6 : ∀ t ∈ ws6, t.type = TokenType.whitespace)
    (hws7 : ∀ t ∈ ws7, t.type = TokenType.whitespace)
    (hws8 : ∀ t ∈ ws8, t.type = TokenType.whitespace)
    (hws9 : ∀ t ∈ ws9, t.type = TokenType.whitespace) :
    parser (tA :: (ws1 ++ tW1 :: (ws2 ++ tH :: (ws3 ++ tW2 :: (ws4 ++ tLP ::
        (ws5 ++ tQ1 :: (ws6 ++ tW3 :: (ws7 ++ tQ2 :: (ws8 ++ tRP :: ws9))))))))) =
      .ok ⟨[.aliasN ⟨⟨tW1.value⟩, ⟨tW2.value, ⟨tW3.value⟩⟩⟩]⟩ ∧
    (∀ (x : Token) (more : List Token), x.type = TokenType.word → x.value ≠ "(" →
      parser (tA :: (ws1 ++ tW1 :: (ws2 ++ tH :: (ws3 ++ tW2 :: (ws4 ++ x :: more))))) =
        .error ()) := by
  have s1 : stepToken [] [] tA =
      .ok ([⟨[tA], 1, false, true, .aliasN ⟨⟨""⟩, ⟨"", ⟨""⟩⟩⟩⟩], []) := by
    simp [stepToken, htAv, feedCollector, next, afterFeed, ruleListOf,
      AliasStatementCollector, aliasRules, htAt]
  have s2 : stepToken [⟨[tA], 1, false, true, .aliasN ⟨⟨""⟩, ⟨"", ⟨""⟩⟩⟩⟩] [] tW1 =
      .ok ([⟨[tA, tW1], 2, false, true, .aliasN ⟨⟨""⟩, ⟨"", ⟨""⟩⟩⟩⟩], []) := by
    simp [stepToken, feedCollector, next, afterFeed, ruleListOf, aliasRules, h1]
  have s3 : stepToken [⟨[tA, tW1], 2, false, true, .aliasN ⟨⟨""⟩, ⟨"", ⟨""⟩⟩⟩⟩] [] tH =
      .ok ([⟨[tA, tW1, tH], 3, false, true, .aliasN ⟨⟨""⟩, ⟨"", ⟨""⟩⟩⟩⟩], []) := by
    simp [stepToken, feedCollector, next, afterFeed, ruleListOf, aliasRules, hHt, hHv]
  have s4 : stepToken [⟨[tA, tW1, tH], 3, false, true, .aliasN ⟨⟨""⟩, ⟨"", ⟨""⟩⟩⟩⟩] [] tW2 =
      .ok ([⟨[tA, tW1, tH, tW2], 4, false, true, .aliasN ⟨⟨""⟩, ⟨"", ⟨""⟩⟩⟩⟩], []) := by
    simp [stepToken, feedCollector, next, afterFeed, ruleListOf, aliasRules, h2]
  have hPrefix : ∀ rest : List Token,
      parserRun (tA :: (ws1 ++ tW1 :: (ws2 ++ tH :: (ws3 ++ tW2 :: (ws4 ++ rest))))) [] [] =
        parserRun rest [⟨[tA, tW1, tH, tW2], 4, false, true, .aliasN ⟨⟨""⟩, ⟨"", ⟨""⟩⟩⟩⟩] [] := by
    intro rest
    rw [parserRun_cons_ok s1,
      parserRun_ws_prefix ws1 hws1 _ _ rfl rfl,
      parserRun_cons_ok s2,
      parserRun_ws_prefix ws2 hws2 _ _ rfl rfl,
      parserRun_cons_ok s3,
      parserRun_ws_prefix ws3 hws3 _ _ rfl rfl,
      parserRun_cons_ok s4,
      parserRun_ws_prefix ws4 hws4 _ _ rfl rfl]
  constructor
  · have s5 : stepToken [⟨[tA, tW1, tH, tW2], 4, false, true, .aliasN ⟨⟨""⟩, ⟨"", ⟨""⟩⟩⟩⟩] [] tLP =
        .ok ([⟨[tA, tW1, tH, tW2, tLP], 5, false, true, .aliasN ⟨⟨""⟩, ⟨"", ⟨""⟩⟩⟩⟩], []) := by
      simp [stepToken, feedCollector, next, afterFeed, ruleListOf, aliasRules, hLPt, hLPv]
    have s6 : stepToken [⟨[tA, tW1, tH, tW2, tLP], 5, false, true, .aliasN ⟨⟨""⟩, ⟨"", ⟨""⟩⟩⟩⟩] [] tQ1 =
        .ok ([⟨[tQ1], 1, false, true, .stringN ⟨""⟩⟩,
              ⟨[tA, tW1, tH, tW2, tLP], 5, false, true, .aliasN ⟨⟨""⟩, ⟨"", ⟨""⟩⟩⟩⟩], []) := by
      simp [stepToken, feedCollector, next, afterFeed, ruleListOf, aliasRules, stringRules,
        StringLiteralCollector, hQ1t, hQ1v]
    have s7 : stepToken [⟨[tQ1], 1, false, true, .stringN ⟨""⟩⟩,
          ⟨[tA, tW1, tH, tW2, tLP], 5, false, true, .aliasN ⟨⟨""⟩, ⟨"", ⟨""⟩⟩⟩⟩] [] tW3 =
        .ok ([⟨[tQ1, tW3], 2, false, true, .stringN ⟨""⟩⟩,
              ⟨[tA, tW1, tH, tW2, tLP], 5, false, true, .aliasN ⟨⟨""⟩, ⟨"", ⟨""⟩⟩⟩⟩], []) := by
      simp [stepToken, feedCollector, next, afterFeed, ruleListOf, stringRules, h3]
    have s8 : stepToken [⟨[tQ1, tW3], 2, false, true, .stringN ⟨""⟩⟩,
          ⟨[tA, tW1, tH, tW2, tLP], 5, false, true, .aliasN ⟨⟨""⟩, ⟨"", ⟨""⟩⟩⟩⟩] [] tQ2 =
        .ok ([⟨[tA, tW1, tH, tW2, tLP], 6, false, true,
              .aliasN ⟨⟨""⟩, ⟨"", ⟨tW3.value⟩⟩⟩⟩], []) := by
      simp [stepToken, feedCollector, next, afterFeed, ruleListOf, stringRules, compose,
        nextCollector, pushCollector, hQ2t, hQ2v]
    have s9 : stepToken [⟨[tA, tW1, tH, tW2, tLP], 6, false, true,
          .aliasN ⟨⟨""⟩, ⟨"", ⟨tW3.value⟩⟩⟩⟩] [] tRP =
        .ok ([], [.aliasN ⟨⟨tW1.value⟩, ⟨tW2.value, ⟨tW3.value⟩⟩⟩]) := by
      simp [stepToken, feedCollector, next, afterFeed, ruleListOf, aliasRules, compose,
        hRPt, hRPv, htAt, h1, hHt, h2, hLPt]
    show (parserRun _ [] []).map Program.mk = _
    rw [hPrefix (tLP :: (ws5 ++ tQ1 :: (ws6 ++ tW3 :: (ws7 ++ tQ2 :: (ws8 ++ tRP :: ws9))))),
      parserRun_cons_ok s5,
      parserRun_ws_prefix ws5 hws5 _ _ rfl rfl,
      parserRun_cons_ok s6,
      parserRun_ws_prefix ws6 hws6 _ _ rfl rfl,
      parserRun_cons_ok s7,
      parserRun_ws_prefix ws7 hws7 _ _ rfl rfl,
      parserRun_cons_ok s8,
      parserRun_ws_prefix ws8 hws8 _ _ rfl rfl,
      parserRun_cons_ok s9,
      parserRun_ws_empty ws9 hws9]
    rfl
  · intro x more hx hxv
    have sErr : stepToken [⟨[tA, tW1, tH, tW2], 4, false, true,
        .aliasN ⟨⟨""⟩, ⟨"", ⟨""⟩⟩⟩⟩] [] x = .error () := by
      simp [stepToken, feedCollector, next, ruleListOf, aliasRules, hx, hxv]
    show (parserRun _ [] []).map Program.mk = _
    rw [hPrefix (x :: more), parserRun_cons_err sErr]
    rfl

/-- C2, witness: the shape instantiated at concrete tokens (two of the
whitespace runs non-empty). -/
theorem c2_alias_shape_witness :
    parser ((⟨TokenType.keyword, "alias", 0, 5, 0, 0⟩ : Token) ::
      ([⟨TokenType.whitespace, " ", 5, 6, 0, 1⟩] ++ (⟨TokenType.word, "foo", 6, 9, 0, 2⟩ : Token) ::
        ([⟨TokenType.whitespace, " ", 9, 10, 0, 3⟩] ++ (⟨TokenType.sign, "#", 10, 11, 0, 4⟩ : Token) ::
          ([] ++ (⟨TokenType.word, "bar", 11, 14, 0, 5⟩ : Token) ::
            ([] ++ (⟨TokenType.sign, "(", 14, 15, 0, 6⟩ : Token) ::
              ([] ++ (⟨TokenType.sign, "\"", 15, 16, 0, 7⟩ : Token) ::
                ([] ++ (⟨TokenType.word, "baz", 16, 19, 0, 8⟩ : Token) ::
                  ([] ++ (⟨TokenType.sign, "\"", 19, 20, 0, 9⟩ : Token) ::
                    ([] ++ (⟨TokenType.sign, ")", 20, 21, 0, 10⟩ : Token) ::
                      ([] : List Token)))))))))) =
      .ok ⟨[.aliasN ⟨⟨"foo"⟩, ⟨"bar", ⟨"baz"⟩⟩⟩]⟩ :=
  (c2_alias_shape
    ⟨TokenType.keyword, "alias", 0, 5, 0, 0⟩ ⟨TokenType.word, "foo", 6, 9, 0, 2⟩
    ⟨TokenType.sign, "#", 10, 11, 0, 4⟩ ⟨TokenType.word, "bar", 11, 14, 0, 5⟩
    ⟨TokenType.sign, "(", 14, 15, 0, 6⟩ ⟨TokenType.sign, "\"", 15, 16, 0, 7⟩
    ⟨TokenType.word, "baz", 16, 19, 0, 8⟩ ⟨TokenType.sign, "\"", 19, 20, 0, 9⟩
    ⟨TokenType.sign, ")", 20, 21, 0, 10⟩
    [⟨TokenType.whitespace, " ", 5, 6, 0, 1⟩] [⟨TokenType.whitespace, " ", 9, 10, 0, 3⟩]
    [] [] [] [] [] [] []
    rfl rfl rfl rfl rfl rfl rfl rfl rfl rfl rfl rfl rfl rfl rfl
    (by simp) (by simp) (by simp) (by simp) (by simp) (by simp) (by simp) (by simp)
    (by simp)).1

/-! ## Claim C4 -/


/-- Membership unfolding of the reserved-word check. -/
theorem isKeyword_mem {v : String} (h : isKeyword v = true) :
    v = "alias" ∨ v = "if" ∨ v = "else" ∨ v = "end" ∨ v = "branch" ∨ v = "goto" := by
  have h2 : v ∈ keywordList :=
    List.elem_iff.mp (by simpa [isKeyword, List.contains] using h)
  simpa [keywordList] using h2

/-- Every reserved word has at least two characters. -/
theorem isKeyword_length {v : String} (h : isKeyword v = true) : 2 ≤ v.length := by
  rcases isKeyword_mem h with rfl|rfl|rfl|rfl|rfl|rfl <;> decide

/-- No reserved word consists of space characters. -/
theorem isKeyword_not_spaces {v : String} (h : isKeyword v = true)
    (hs : ∀ c ∈ v.data, c.toNat = 32) : False := by
  rcases isKeyword_mem h with rfl|rfl|rfl|rfl|rfl|rfl
  · exact absurd (hs 'a' (by decide)) (by decide)
  · exact absurd (hs 'i' (by decide)) (by decide)
  · exact absurd (hs 'e' (by decide)) (by decide)
  · exact absurd (hs 'e' (by decide)) (by decide)
  · exact absurd (hs 'b' (by decide)) (by decide)
  · exact absurd (hs 'g' (by decide)) (by decide)

/-- The scanner never opens a token with the Keyword type. -/
theorem charDispatch_ne_keyword (c : Char) : charDispatch c ≠ TokenType.keyword := by
  unfold charDispatch
  split
  · simp
  · split <;> simp

/-- Only the space character is dispatched as Whitespace. -/
theorem charDispatch_ws {c : Char} (h : charDispatch c = TokenType.whitespace) :
    c.toNat = 32 := by
  unfold charDispatch at h
  by_cases hw : isWhitespace c = true
  · simpa [isWhitespace, space] using hw
  · rw [if_neg] at h
    · split at h <;> simp_all
    · simp [hw]



/-- Membership in the token list of a state with no open token. -/
theorem mem_tokensOf_none {s : TokState} {t : Token} (hl : s.last = none) :
    t ∈ tokensOf s ↔ t ∈ s.revTokens := by
  simp [tokensOf, hl]

/-- Membership in the token list of a state with an open token. -/
theorem mem_tokensOf_some {s : TokState} {lt t : Token} (hl : s.last = some lt) :
    t ∈ tokensOf s ↔ t ∈ s.revTokens ∨ t = lt := by
  simp [tokensOf, hl]

/-- The scan invariant that settles keyword retro-classification: token
starts lie before the scan index, the open token ends at the scan index and
is never Keyword-typed, a closed Word-typed token whose text is a reserved
word (it was closed by a line break, the only way such a token stays Word)
ends strictly before the scan index and no token starts at its end, every
Keyword-typed token has a reserved-word text and a token starting exactly
at its end, Whitespace tokens hold only spaces and Sign tokens a single
character. -/
structure TokInv (s : TokState) : Prop where
  startIdx : ∀ t ∈ tokensOf s, t.start < s.index
  lastEnd : ∀ lt, s.last = some lt → lt.endPos = s.index
  lastType : ∀ lt, s.last = some lt → lt.type ≠ TokenType.keyword
  kwClosed : ∀ t ∈ s.revTokens, t.type = TokenType.word → isKeyword t.value = true →
      t.endPos < s.index
  kwNoWit : ∀ t ∈ s.revTokens, t.type = TokenType.word → isKeyword t.value = true →
      ∀ u ∈ tokensOf s, u.start ≠ t.endPos
  kwWit : ∀ t ∈ tokensOf s, t.type = TokenType.keyword →
      isKeyword t.value = true ∧ ∃ u ∈ tokensOf s, u.start = t.endPos
  wsVal : ∀ t ∈ tokensOf s, t.type = TokenType.whitespace → ∀ c ∈ t.value.data, c.toNat = 32
  signVal : ∀ t ∈ tokensOf s, t.type = TokenType.sign → t.value.length = 1

/-- The invariant holds initially. -/
theorem tokInv_init : TokInv initTokState := by
  constructor <;> simp [initTokState, tokensOf]

/-- Retro-classification does not move the token start. -/
theorem retagKeyword_start (t : Token) : (retagKeyword t).start = t.start := by
  unfold retagKeyword; split <;> rfl

/-- Retro-classification does not move the token end. -/
theorem retagKeyword_endPos (t : Token) : (retagKeyword t).endPos = t.endPos := by
  unfold retagKeyword; split <;> rfl

/-- The invariant is preserved by scanning one non-newline character. -/
theorem tokInv_pushToken (s : TokState) (ty : TokenType) (c : Char)
    (inv : TokInv s) (hty : ty ≠ TokenType.keyword)
    (hwsc : ty = TokenType.whitespace → c.toNat = 32) :
    TokInv (pushToken s ty c) := by
  cases hl : s.last with
  | none =>
    have hexp : pushToken s ty c =
        ⟨s.index + 1, s.line, s.col + 1, s.revTokens,
          some ⟨ty, String.singleton c, s.index, s.index + 1, s.line, s.col⟩⟩ := by
      simp [pushToken, hl]
    rw [hexp]
    have hmem : ∀ t : Token,
        t ∈ tokensOf ⟨s.index + 1, s.line, s.col + 1, s.revTokens,
            some ⟨ty, String.singleton c, s.index, s.index + 1, s.line, s.col⟩⟩ ↔
          t ∈ s.revTokens ∨ t = ⟨ty, String.singleton c, s.index, s.index + 1, s.line, s.col⟩ :=
      fun t => mem_tokensOf_some rfl
    have hold : ∀ t : Token, t ∈ s.revTokens → t ∈ tokensOf s :=
      fun t ht => (mem_tokensOf_none hl).mpr ht
    constructor
    · intro t ht
      rcases (hmem t).mp ht with h | rfl
      · exact Nat.lt_succ_of_lt (inv.startIdx t (hold t h))
      · exact Nat.lt_succ_self _
    · intro u hu
      cases hu
      rfl
    · intro u hu
      cases hu
      exact hty
    · intro t ht h1 h2
      exact Nat.lt_succ_of_lt (inv.kwClosed t ht h1 h2)
    · intro t ht h1 h2 u hu
      rcases (hmem u).mp hu with h | rfl
      · exact inv.kwNoWit t ht h1 h2 u (hold u h)
      · show s.index ≠ t.endPos
        exact fun he => absurd (he ▸ inv.kwClosed t ht h1 h2) (Nat.lt_irrefl _)
    · intro t ht hkw
      rcases (hmem t).mp ht with h | rfl
      · obtain ⟨h1, u, hu, hstart⟩ := inv.kwWit t (hold t h) hkw
        exact ⟨h1, u, (hmem u).mpr (Or.inl ((mem_tokensOf_none hl).mp hu)), hstart⟩
      · exact absurd hkw hty
    · intro t ht htype cc hcc
      rcases (hmem t).mp ht with h | rfl
      · exact inv.wsVal t (hold t h) htype cc hcc
      · have hcc2 : cc = c := by simpa [String.singleton] using hcc
        subst hcc2
        exact hwsc htype
    · intro t ht htype
      rcases (hmem t).mp ht with h | rfl
      · exact inv.signVal t (hold t h) htype
      · rfl
  | some lt =>
    by_cases hcond : (lt.type == ty &&
        (lt.type == TokenType.whitespace || lt.type == TokenType.word)) = true
    · have hc : lt.type = ty ∧ (lt.type = TokenType.whitespace ∨ lt.type = TokenType.word) := by
        simpa using hcond
      have hexp : pushToken s ty c =
          ⟨s.index + 1, s.line, s.col, s.revTokens,
            some ⟨lt.type, lt.value.push c, lt.start, lt.endPos + 1, lt.line, lt.col⟩⟩ := by
        simp only [pushToken, hl]
        rw [if_pos hcond]
      rw [hexp]
      have hmem : ∀ t : Token,
          t ∈ tokensOf ⟨s.index + 1, s.line, s.col, s.revTokens,
              some ⟨lt.type, lt.value.push c, lt.start, lt.endPos + 1, lt.line, lt.col⟩⟩ ↔
            t ∈ s.revTokens ∨
              t = ⟨lt.type, lt.value.push c, lt.start, lt.endPos + 1, lt.line, lt.col⟩ :=
        fun t => mem_tokensOf_some rfl
      have hold : ∀ t : Token, t ∈ s.revTokens → t ∈ tokensOf s :=
        fun t ht => (mem_tokensOf_some hl).mpr (Or.inl ht)
      have hltmem : lt ∈ tokensOf s := (mem_tokensOf_some hl).mpr (Or.inr rfl)
      constructor
      · intro t ht
        rcases (hmem t).mp ht with h | rfl
        · exact Nat.lt_succ_of_lt (inv.startIdx t (hold t h))
        · exact Nat.lt_succ_of_lt (inv.startIdx lt hltmem)
      · intro u hu
        cases hu
        show lt.endPos + 1 = s.index + 1
        rw [inv.lastEnd lt hl]
      · intro u hu
        cases hu
        exact inv.lastType lt hl
      · intro t ht h1 h2
        exact Nat.lt_succ_of_lt (inv.kwClosed t ht h1 h2)
      · intro t ht h1 h2 u hu
        rcases (hmem u).mp hu with h | rfl
        · exact inv.kwNoWit t ht h1 h2 u (hold u h)
        · show lt.start ≠ t.endPos
          exact inv.kwNoWit t ht h1 h2 lt hltmem
      · intro t ht hkw
        rcases (hmem t).mp ht with h | rfl
        · obtain ⟨h1, u, hu, hstart⟩ := inv.kwWit t (hold t h) hkw
          refine ⟨h1, ?_⟩
          rcases (mem_tokensOf_some hl).mp hu with h3 | rfl
          · exact ⟨u, (hmem u).mpr (Or.inl h3), hstart⟩
          · exact ⟨_, (hmem _).mpr (Or.inr rfl), hstart⟩
        · exact absurd hkw (inv.lastType lt hl)
      · intro t ht htype cc hcc
        rcases (hmem t).mp ht with h | rfl
        · exact inv.wsVal t (hold t h) htype cc hcc
        · have hdata : (lt.value.push c).data = lt.value.data ++ [c] := rfl
          rw [hdata] at hcc
          rcases List.mem_append.mp hcc with h3 | h3
          · exact inv.wsVal lt hltmem htype cc h3
          · have hcc2 : cc = c := by simpa using h3
            subst hcc2
            exact hwsc (hc.1 ▸ htype)
      · intro t ht htype
        rcases (hmem t).mp ht with h | rfl
        · exact inv.signVal t (hold t h) htype
        · exfalso
          rcases hc.2 with h3 | h3 <;> rw [h3] at htype <;> exact absurd htype (by simp)
    · have hexp : pushToken s ty c =
          ⟨s.index + 1, s.line, s.col + 1, retagKeyword lt :: s.revTokens,
            some ⟨ty, String.singleton c, s.index, s.index + 1, s.line, s.col⟩⟩ := by
        simp only [pushToken, hl]
        rw [if_neg hcond]
      rw [hexp]
      have hmem : ∀ t : Token,
          t ∈ tokensOf ⟨s.index + 1, s.line, s.col + 1, retagKeyword lt :: s.revTokens,
              some ⟨ty, String.singleton c, s.index, s.index + 1, s.line, s.col⟩⟩ ↔
            (t = retagKeyword lt ∨ t ∈ s.revTokens) ∨
              t = ⟨ty, String.singleton c, s.index, s.index + 1, s.line, s.col⟩ := by
        intro t
        rw [mem_tokensOf_some rfl]
        simp
      have hold : ∀ t : Token, t ∈ s.revTokens → t ∈ tokensOf s :=
        fun t ht => (mem_tokensOf_some hl).mpr (Or.inl ht)
      have hltmem : lt ∈ tokensOf s := (mem_tokensOf_some hl).mpr (Or.inr rfl)
      have hltEnd : lt.endPos = s.index := inv.lastEnd lt hl
      have hretag_not_kw_word : ∀ (hw : (retagKeyword lt).type = TokenType.word)
          (hk : isKeyword (retagKeyword lt).value = true), False := by
        intro hw hk
        rw [retagKeyword_value] at hk
        unfold retagKeyword at hw
        rw [if_pos hk] at hw
        exact absurd hw (by simp)
      constructor
      · intro t ht
        rcases (hmem t).mp ht with h | rfl
        · rcases h with rfl | h
          · rw [retagKeyword_start]
            exact Nat.lt_succ_of_lt (inv.startIdx lt hltmem)
          · exact Nat.lt_succ_of_lt (inv.startIdx t (hold t h))
        · exact Nat.lt_succ_self _
      · intro u hu
        cases hu
        rfl
      · intro u hu
        cases hu
        exact hty
      · intro t ht h1 h2
        rcases List.mem_cons.mp ht with rfl | h
        · exact absurd h2 (fun h2 => hretag_not_kw_word h1 h2)
        · exact Nat.lt_succ_of_lt (inv.kwClosed t h h1 h2)
      · intro t ht h1 h2 u hu
        rcases List.mem_cons.mp ht with rfl | h
        · exact absurd h2 (fun h2 => hretag_not_kw_word h1 h2)
        · rcases (hmem u).mp hu with h3 | rfl
          · rcases h3 with rfl | h3
            · rw [retagKeyword_start]
              exact inv.kwNoWit t h h1 h2 lt hltmem
            · exact inv.kwNoWit t h h1 h2 u (hold u h3)
          · show s.index ≠ t.endPos
            exact fun he => absurd (he ▸ inv.kwClosed t h h1 h2) (Nat.lt_irrefl _)
      · intro t ht hkw
        rcases (hmem t).mp ht with h | rfl
        · rcases h with rfl | h
          · by_cases hk : isKeyword lt.value = true
            · refine ⟨by rw [retagKeyword_value]; exact hk, ?_⟩
              refine ⟨⟨ty, String.singleton c, s.index, s.index + 1, s.line, s.col⟩,
                (hmem _).mpr (Or.inr rfl), ?_⟩
              show s.index = (retagKeyword lt).endPos
              rw [retagKeyword_endPos, hltEnd]
            · exfalso
              unfold retagKeyword at hkw
              rw [if_neg hk] at hkw
              exact inv.lastType lt hl hkw
          · obtain ⟨h1, u, hu, hstart⟩ := inv.kwWit t (hold t h) hkw
            refine ⟨h1, ?_⟩
            rcases (mem_tokensOf_some hl).mp hu with h3 | heq
            · exact ⟨u, (hmem u).mpr (Or.inl (Or.inr h3)), hstart⟩
            · refine ⟨retagKeyword lt, (hmem _).mpr (Or.inl (Or.inl rfl)), ?_⟩
              rw [retagKeyword_start, ← heq]
              exact hstart
        · exact absurd hkw hty
      · intro t ht htype cc hcc
        rcases (hmem t).mp ht with h | rfl
        · rcases h with rfl | h
          · have hlt_ws : lt.type = TokenType.whitespace := by
              unfold retagKeyword at htype
              by_cases hk : isKeyword lt.value = true
              · rw [if_pos hk] at htype
                exact absurd htype (by simp)
              · rwa [if_neg hk] at htype
            rw [retagKeyword_value] at hcc
            exact inv.wsVal lt hltmem hlt_ws cc hcc
          · exact inv.wsVal t (hold t h) htype cc hcc
        · have hcc2 : cc = c := by simpa [String.singleton] using hcc
          subst hcc2
          exact hwsc htype
      · intro t ht htype
        rcases (hmem t).mp ht with h | rfl
        · rcases h with rfl | h
          · have hlt_sgn : lt.type = TokenType.sign := by
              unfold retagKeyword at htype
              by_cases hk : isKeyword lt.value = true
              · rw [if_pos hk] at htype
                exact absurd htype (by simp)
              · rwa [if_neg hk] at htype
            rw [retagKeyword_value]
            exact inv.signVal lt hltmem hlt_sgn
          · exact inv.signVal t (hold t h) htype
        · rfl



/-- Closing the open token on a line break does not change the token
list. -/
theorem tokensOf_pushNewLine (s : TokState) (k : Nat) :
    tokensOf (pushNewLine s k) = tokensOf s := by
  cases h : s.last <;> simp [tokensOf, pushNewLine, h]

/-- The invariant is preserved by consuming a line break. -/
theorem tokInv_pushNewLine (s : TokState) (k : Nat) (hk : 1 ≤ k) (inv : TokInv s) :
    TokInv (pushNewLine s k) := by
  have htok := tokensOf_pushNewLine s k
  have hidx : (pushNewLine s k).index = s.index + k := rfl
  have hlast : (pushNewLine s k).last = none := rfl
  cases hl : s.last with
  | none =>
    have hrev : (pushNewLine s k).revTokens = s.revTokens := by simp [pushNewLine, hl]
    constructor
    · intro t ht
      rw [htok] at ht
      calc t.start < s.index := inv.startIdx t ht
        _ ≤ s.index + k := Nat.le_add_right _ _
    · intro u hu
      rw [hlast] at hu
      exact Option.noConfusion hu
    · intro u hu
      rw [hlast] at hu
      exact Option.noConfusion hu
    · intro t ht h1 h2
      rw [hrev] at ht
      calc t.endPos < s.index := inv.kwClosed t ht h1 h2
        _ ≤ s.index + k := Nat.le_add_right _ _
    · intro t ht h1 h2 u hu
      rw [hrev] at ht
      rw [htok] at hu
      exact inv.kwNoWit t ht h1 h2 u hu
    · intro t ht hkw
      rw [htok] at ht
      obtain ⟨ha, u, hu, hus⟩ := inv.kwWit t ht hkw
      rw [← htok] at hu
      exact ⟨ha, u, hu, hus⟩
    · intro t ht
      rw [htok] at ht
      exact inv.wsVal t ht
    · intro t ht
      rw [htok] at ht
      exact inv.signVal t ht
  | some lt =>
    have hrev : (pushNewLine s k).revTokens = lt :: s.revTokens := by simp [pushNewLine, hl]
    have hltEnd : lt.endPos = s.index := inv.lastEnd lt hl
    constructor
    · intro t ht
      rw [htok] at ht
      calc t.start < s.index := inv.startIdx t ht
        _ ≤ s.index + k := Nat.le_add_right _ _
    · intro u hu
      rw [hlast] at hu
      exact Option.noConfusion hu
    · intro u hu
      rw [hlast] at hu
      exact Option.noConfusion hu
    · intro t ht h1 h2
      rw [hrev] at ht
      rcases List.mem_cons.mp ht with heq | h
      · subst heq
        omega
      · calc t.endPos < s.index := inv.kwClosed t h h1 h2
          _ ≤ s.index + k := Nat.le_add_right _ _
    · intro t ht h1 h2 u hu
      rw [hrev] at ht
      rw [htok] at hu
      rcases List.mem_cons.mp ht with heq | h
      · subst heq
        have h3 := inv.startIdx u hu
        omega
      · exact inv.kwNoWit t h h1 h2 u hu
    · intro t ht hkw
      rw [htok] at ht
      obtain ⟨ha, u, hu, hus⟩ := inv.kwWit t ht hkw
      rw [← htok] at hu
      exact ⟨ha, u, hu, hus⟩
    · intro t ht
      rw [htok] at ht
      exact inv.wsVal t ht
    · intro t ht
      rw [htok] at ht
      exact inv.signVal t ht

/-- The invariant is preserved by the whole scan. -/
theorem tokInv_run : ∀ (cs : List Char) (s : TokState), TokInv s → TokInv (tokenizerRun cs s) := by
  intro cs s
  induction cs, s using tokenizerRun.induct with
  | case1 s => exact fun inv => inv
  | case2 c s h c2 rest2 h2 ih =>
    intro inv
    rw [tokenizerRun.eq_def]
    simp only [h, h2, if_true]
    exact ih (tokInv_pushNewLine s 2 (by omega) inv)
  | case3 c s h c2 rest2 h2 ih =>
    intro inv
    rw [tokenizerRun.eq_def]
    simp only [h, if_true]
    rw [if_neg h2]
    exact ih (tokInv_pushNewLine s 1 (by omega) inv)
  | case4 c s h ih =>
    intro inv
    rw [tokenizerRun.eq_def]
    simp only [h, if_true]
    exact ih (tokInv_pushNewLine s 1 (by omega) inv)
  | case5 c rest s h ih =>
    intro inv
    rw [tokenizerRun.eq_def]
    simp only [Bool.not_eq_true] at h
    simp only [h, Bool.false_eq_true, if_false]
    exact ih (tokInv_pushToken s (charDispatch c) c inv (charDispatch_ne_keyword c)
      (fun hws => charDispatch_ws hws))

/-- C4, amended.  A maximal Word token whose text equals a reserved word is
tagged Keyword in the output of `tokenize` if and only if another token
begins exactly where it ends — that is, on the same line, with no line
break in between.  A reserved word that is the last token of the input, or
the last token before a line break, keeps kind Word: `pushNewLine` clears
the open-token reference without retro-classification, so a later token on
a later line starts past the word's end and never promotes it. -/
theorem c4_amended (input : String) :
    ∀ t ∈ tokenizer input, t.type = TokenType.keyword ↔
      (isKeyword t.value = true ∧ ∃ u ∈ tokenizer input, u.start = t.endPos) := by
  have inv : TokInv (tokenizerRun input.data initTokState) := tokInv_run _ _ tokInv_init
  intro t ht
  simp only [tokenizer] at ht
  constructor
  · intro hkw
    obtain ⟨ha, u, hu, hus⟩ := inv.kwWit t ht hkw
    exact ⟨ha, u, hu, hus⟩
  · rintro ⟨hkw, u, hu, hus⟩
    simp only [tokenizer] at hu
    cases htype : t.type with
    | whitespace =>
      exact absurd (isKeyword_not_spaces hkw (fun cc hcc => inv.wsVal t ht htype cc hcc)) id
    | sign =>
      exfalso
      have h1 := inv.signVal t ht htype
      have h2 := isKeyword_length hkw
      omega
    | keyword => rfl
    | word =>
      exfalso
      cases hlast : (tokenizerRun input.data initTokState).last with
      | none =>
        exact inv.kwNoWit t ((mem_tokensOf_none hlast).mp ht) htype hkw u hu hus
      | some lt =>
        rcases (mem_tokensOf_some hlast).mp ht with h | heq
        · exact inv.kwNoWit t h htype hkw u hu hus
        · have h1 : t.endPos = (tokenizerRun input.data initTokState).index := by
            rw [heq]
            exact inv.lastEnd lt hlast
          have h2 := inv.startIdx u hu
          omega


/-- C4, counterexample.  The claim says a reserved word followed by any
later token — including one on a later line, after a line break — is
retagged Keyword.  In `tokenize("alias\nx")` the token `x` begins after
the word `alias`, yet `alias` keeps kind Word: the line break cleared the
open-token reference before `x` was opened. -/
theorem c4_counterexample :
    tokenizer "alias\nx" =
      [⟨TokenType.word, "alias", 0, 5, 0, 0⟩, ⟨TokenType.word, "x", 6, 7, 1, 0⟩] := by rfl

/-- C4, witness for the amended theorem: the first token of
`tokenize("alias x")` is Keyword-typed, and the iff instantiates to it. -/
theorem c4_amended_witness :
    (⟨TokenType.keyword, "alias", 0, 5, 0, 0⟩ : Token).type = TokenType.keyword ↔
      (isKeyword (⟨TokenType.keyword, "alias", 0, 5, 0, 0⟩ : Token).value = true ∧
        ∃ u ∈ tokenizer "alias x",
          u.start = (⟨TokenType.keyword, "alias", 0, 5, 0, 0⟩ : Token).endPos) :=
  c4_amended "alias x" ⟨TokenType.keyword, "alias", 0, 5, 0, 0⟩
    (by rw [show tokenizer "alias x" =
        [⟨TokenType.keyword, "alias", 0, 5, 0, 0⟩, ⟨TokenType.whitespace, " ", 5, 6, 0, 1⟩,
          ⟨TokenType.word, "x", 6, 7, 0, 2⟩] from rfl]
        exact List.mem_cons_self _ _)

/-! ## Claim C7 -/


/-- A line-break character is not a sign. -/
theorem newline_not_sign {a : Char} (h : isNewLine a = true) : isSign a = false := by
  have h2 : a.toNat = 10 ∨ a.toNat = 13 := by
    simpa [isNewLine, lineFeed, carriageReturn] using h
  rcases h2 with h2 | h2 <;> · rw [isSign, h2]; decide

/-- A sign character is not the space character. -/
theorem sign_not_ws {a : Char} (h : isSign a = true) : isWhitespace a = false := by
  by_contra hw
  have hw2 : isWhitespace a = true := by simpa using hw
  have h32 : a.toNat = 32 := by simpa [isWhitespace, space] using hw2
  rw [isSign, h32] at h
  exact absurd h (by decide)

/-- A sign character is dispatched as a Sign token. -/
theorem sign_dispatch {a : Char} (h : isSign a = true) :
    charDispatch a = TokenType.sign := by
  simp [charDispatch, sign_not_ws h, h]

/-- The positional invariant behind token coalescing: the scan index stays
in range; token starts lie before it; the open token ends at the index, is
non-degenerate, and its type is the dispatch class of the character just
scanned; when no token is open, the scan is at the start or just consumed a
line break; two adjacent same-class Whitespace/Word characters already
scanned lie inside one token; every scanned sign character forms its own
single-character Sign token; Sign tokens hold a single character. -/
structure PosInv (input : List Char) (s : TokState) : Prop where
  idxLe : s.index ≤ input.length
  startIdx : ∀ t ∈ tokensOf s, t.start < s.index
  lastEnd : ∀ lt, s.last = some lt → lt.endPos = s.index
  lastStart : ∀ lt, s.last = some lt → lt.start < lt.endPos
  lastChar : ∀ lt, s.last = some lt → ∃ c, input[s.index - 1]? = some c ∧
      isNewLine c = false ∧ charDispatch c = lt.type
  lastNone : s.last = none → s.index = 0 ∨
      ∃ c, input[s.index - 1]? = some c ∧ isNewLine c = true
  pairs : ∀ j a b, j + 1 < s.index → input[j]? = some a → input[j + 1]? = some b →
      isNewLine a = false → isNewLine b = false →
      charDispatch a = charDispatch b →
      (charDispatch a = TokenType.whitespace ∨ charDispatch a = TokenType.word) →
      ∃ t ∈ tokensOf s, t.start ≤ j ∧ j + 1 < t.endPos
  signSingle : ∀ j a, j < s.index → input[j]? = some a → isSign a = true →
      ∃ t ∈ tokensOf s, t.start = j ∧ t.endPos = j + 1 ∧ t.type = TokenType.sign
  signLen : ∀ t ∈ tokensOf s, t.type = TokenType.sign → t.value.length = 1

/-- The positional invariant holds initially. -/
theorem posInv_init (input : List Char) : PosInv input initTokState := by
  constructor <;> simp [initTokState, tokensOf]

/-- The positional invariant is preserved by consuming a line break of one
or two characters, all of which are newline characters. -/
theorem posInv_pushNewLine (input : List Char) (s : TokState) (k : Nat)
    (hk : 1 ≤ k) (inv : PosInv input s)
    (hnl : ∀ m, m < k → ∃ c, input[s.index + m]? = some c ∧ isNewLine c = true) :
    PosInv input (pushNewLine s k) := by
  have htok := tokensOf_pushNewLine s k
  have hidx : (pushNewLine s k).index = s.index + k := rfl
  have hlast : (pushNewLine s k).last = none := rfl
  constructor
  · obtain ⟨c, hcg, _⟩ := hnl (k - 1) (by omega)
    obtain ⟨hlt, _⟩ := List.getElem?_eq_some.mp hcg
    rw [hidx]
    omega
  · intro t ht
    rw [htok] at ht
    have := inv.startIdx t ht
    rw [hidx]
    omega
  · intro u hu
    rw [hlast] at hu
    exact Option.noConfusion hu
  · intro u hu
    rw [hlast] at hu
    exact Option.noConfusion hu
  · intro u hu
    rw [hlast] at hu
    exact Option.noConfusion hu
  · intro _
    right
    obtain ⟨c, hcg, hcn⟩ := hnl (k - 1) (by omega)
    refine ⟨c, ?_, hcn⟩
    rw [hidx]
    have : s.index + k - 1 = s.index + (k - 1) := by omega
    rw [this]
    exact hcg
  · intro j a b hj ha hb hna hnb hdis hcls
    rw [htok]
    rw [hidx] at hj
    by_cases hjold : j + 1 < s.index
    · exact inv.pairs j a b hjold ha hb hna hnb hdis hcls
    · exfalso
      have hm : j + 1 = s.index + (j + 1 - s.index) := by omega
      obtain ⟨c, hcg, hcn⟩ := hnl (j + 1 - s.index) (by omega)
      rw [← hm] at hcg
      have : b = c := Option.some_inj.mp (hb.symm.trans hcg)
      rw [this, hcn] at hnb
      exact Bool.noConfusion hnb
  · intro j a hj ha hsg
    rw [htok]
    rw [hidx] at hj
    by_cases hjold : j < s.index
    · exact inv.signSingle j a hjold ha hsg
    · exfalso
      have hm : j = s.index + (j - s.index) := by omega
      obtain ⟨c, hcg, hcn⟩ := hnl (j - s.index) (by omega)
      rw [← hm] at hcg
      have : a = c := Option.some_inj.mp (ha.symm.trans hcg)
      rw [this] at hsg
      rw [newline_not_sign hcn] at hsg
      exact Bool.noConfusion hsg
  · intro t ht
    rw [htok] at ht
    exact inv.signLen t ht



/-- The positional invariant is preserved by scanning one non-newline
character. -/
theorem posInv_pushToken (input : List Char) (s : TokState) (c : Char)
    (hc : input[s.index]? = some c) (hnl : isNewLine c = false)
    (inv : PosInv input s) :
    PosInv input (pushToken s (charDispatch c) c) := by
  obtain ⟨hlen, _⟩ := List.getElem?_eq_some.mp hc
  have hidx1 : s.index + 1 - 1 = s.index := by omega
  cases hl : s.last with
  | none =>
    have hexp : pushToken s (charDispatch c) c =
        ⟨s.index + 1, s.line, s.col + 1, s.revTokens,
          some ⟨charDispatch c, String.singleton c, s.index, s.index + 1, s.line, s.col⟩⟩ := by
      simp [pushToken, hl]
    rw [hexp]
    have hmem : ∀ t : Token,
        t ∈ tokensOf ⟨s.index + 1, s.line, s.col + 1, s.revTokens,
            some ⟨charDispatch c, String.singleton c, s.index, s.index + 1, s.line, s.col⟩⟩ ↔
          t ∈ s.revTokens ∨
            t = ⟨charDispatch c, String.singleton c, s.index, s.index + 1, s.line, s.col⟩ :=
      fun t => mem_tokensOf_some rfl
    have hold : ∀ t : Token, t ∈ s.revTokens → t ∈ tokensOf s :=
      fun t ht => (mem_tokensOf_none hl).mpr ht
    constructor
    · exact hlen
    · intro t ht
      rcases (hmem t).mp ht with h | rfl
      · exact Nat.lt_succ_of_lt (inv.startIdx t (hold t h))
      · exact Nat.lt_succ_self _
    · intro u hu
      cases hu
      rfl
    · intro u hu
      cases hu
      exact Nat.lt_succ_self _
    · intro u hu
      cases hu
      refine ⟨c, ?_, hnl, rfl⟩
      rw [hidx1]
      exact hc
    · intro hcon
      exact Option.noConfusion hcon
    · intro j a b hj ha hb hna hnb hdis hcls
      have hj2 : j + 1 < s.index + 1 := hj
      by_cases hjold : j + 1 < s.index
      · obtain ⟨t, htm, hts⟩ := inv.pairs j a b hjold ha hb hna hnb hdis hcls
        exact ⟨t, (hmem t).mpr (Or.inl ((mem_tokensOf_none hl).mp htm)), hts⟩
      · exfalso
        have hji : j + 1 = s.index := by omega
        rcases inv.lastNone hl with h0 | hex
        · omega
        · obtain ⟨cp, hcp, hcpn⟩ := hex
          have hprev : s.index - 1 = j := by omega
          rw [hprev] at hcp
          have hacp : a = cp := Option.some_inj.mp (ha.symm.trans hcp)
          rw [hacp, hcpn] at hna
          exact Bool.noConfusion hna
    · intro j a hj ha hsg
      have hj2 : j < s.index + 1 := hj
      by_cases hjold : j < s.index
      · obtain ⟨t, htm, hts⟩ := inv.signSingle j a hjold ha hsg
        exact ⟨t, (hmem t).mpr (Or.inl ((mem_tokensOf_none hl).mp htm)), hts⟩
      · have hji : j = s.index := by omega
        subst hji
        have hac : a = c := Option.some_inj.mp (ha.symm.trans hc)
        subst hac
        exact ⟨_, (hmem _).mpr (Or.inr rfl), rfl, rfl, sign_dispatch hsg⟩
    · intro t ht htype
      rcases (hmem t).mp ht with h | rfl
      · exact inv.signLen t (hold t h) htype
      · rfl
  | some lt =>
    by_cases hcond : (lt.type == charDispatch c &&
        (lt.type == TokenType.whitespace || lt.type == TokenType.word)) = true
    · have hc2 : lt.type = charDispatch c ∧
          (lt.type = TokenType.whitespace ∨ lt.type = TokenType.word) := by
        simpa using hcond
      have hexp : pushToken s (charDispatch c) c =
          ⟨s.index + 1, s.line, s.col, s.revTokens,
            some ⟨lt.type, lt.value.push c, lt.start, lt.endPos + 1, lt.line, lt.col⟩⟩ := by
        simp only [pushToken, hl]
        rw [if_pos hcond]
      rw [hexp]
      have hmem : ∀ t : Token,
          t ∈ tokensOf ⟨s.index + 1, s.line, s.col, s.revTokens,
              some ⟨lt.type, lt.value.push c, lt.start, lt.endPos + 1, lt.line, lt.col⟩⟩ ↔
            t ∈ s.revTokens ∨
              t = ⟨lt.type, lt.value.push c, lt.start, lt.endPos + 1, lt.line, lt.col⟩ :=
        fun t => mem_tokensOf_some rfl
      have hold : ∀ t : Token, t ∈ s.revTokens → t ∈ tokensOf s :=
        fun t ht => (mem_tokensOf_some hl).mpr (Or.inl ht)
      have hltmem : lt ∈ tokensOf s := (mem_tokensOf_some hl).mpr (Or.inr rfl)
      have hltEnd : lt.endPos = s.index := inv.lastEnd lt hl
      have hltStart : lt.start < lt.endPos := inv.lastStart lt hl
      constructor
      · exact hlen
      · intro t ht
        rcases (hmem t).mp ht with h | rfl
        · exact Nat.lt_succ_of_lt (inv.startIdx t (hold t h))
        · exact Nat.lt_succ_of_lt (inv.startIdx lt hltmem)
      · intro u hu
        cases hu
        show lt.endPos + 1 = s.index + 1
        omega
      · intro u hu
        cases hu
        show lt.start < lt.endPos + 1
        omega
      · intro u hu
        cases hu
        refine ⟨c, ?_, hnl, hc2.1.symm⟩
        rw [hidx1]
        exact hc
      · intro hcon
        exact Option.noConfusion hcon
      · intro j a b hj ha hb hna hnb hdis hcls
        have hj2 : j + 1 < s.index + 1 := hj
        by_cases hjold : j + 1 < s.index
        · obtain ⟨t, htm, ht1, ht2⟩ := inv.pairs j a b hjold ha hb hna hnb hdis hcls
          rcases (mem_tokensOf_some hl).mp htm with h | heq
          · exact ⟨t, (hmem t).mpr (Or.inl h), ht1, ht2⟩
          · refine ⟨⟨lt.type, lt.value.push c, lt.start, lt.endPos + 1, lt.line, lt.col⟩,
              (hmem _).mpr (Or.inr rfl), ?_, ?_⟩
            · show lt.start ≤ j
              rw [← heq]
              exact ht1
            · show j + 1 < lt.endPos + 1
              have : t.endPos = lt.endPos := by rw [heq]
              omega
        · have hji : j + 1 = s.index := by omega
          refine ⟨⟨lt.type, lt.value.push c, lt.start, lt.endPos + 1, lt.line, lt.col⟩,
            (hmem _).mpr (Or.inr rfl), ?_, ?_⟩
          · show lt.start ≤ j
            omega
          · show j + 1 < lt.endPos + 1
            omega
      · intro j a hj ha hsg
        have hj2 : j < s.index + 1 := hj
        by_cases hjold : j < s.index
        · obtain ⟨t, htm, ht1, ht2, ht3⟩ := inv.signSingle j a hjold ha hsg
          rcases (mem_tokensOf_some hl).mp htm with h | heq
          · exact ⟨t, (hmem t).mpr (Or.inl h), ht1, ht2, ht3⟩
          · exfalso
            have : lt.type = TokenType.sign := by rw [← heq]; exact ht3
            rcases hc2.2 with h2 | h2 <;> rw [h2] at this <;> exact TokenType.noConfusion this
        · exfalso
          have hji : j = s.index := by omega
          subst hji
          have hac : a = c := Option.some_inj.mp (ha.symm.trans hc)
          subst hac
          have hds := sign_dispatch hsg
          rw [← hc2.1] at hds
          rcases hc2.2 with h2 | h2 <;> rw [h2] at hds <;> exact TokenType.noConfusion hds
      · intro t ht htype
        rcases (hmem t).mp ht with h | rfl
        · exact inv.signLen t (hold t h) htype
        · exfalso
          have : lt.type = TokenType.sign := htype
          rcases hc2.2 with h2 | h2 <;> rw [h2] at this <;> exact TokenType.noConfusion this
    · have hexp : pushToken s (charDispatch c) c =
          ⟨s.index + 1, s.line, s.col + 1, retagKeyword lt :: s.revTokens,
            some ⟨charDispatch c, String.singleton c, s.index, s.index + 1, s.line, s.col⟩⟩ := by
        simp only [pushToken, hl]
        rw [if_neg hcond]
      rw [hexp]
      have hmem : ∀ t : Token,
          t ∈ tokensOf ⟨s.index + 1, s.line, s.col + 1, retagKeyword lt :: s.revTokens,
              some ⟨charDispatch c, String.singleton c, s.index, s.index + 1, s.line, s.col⟩⟩ ↔
            (t = retagKeyword lt ∨ t ∈ s.revTokens) ∨
              t = ⟨charDispatch c, String.singleton c, s.index, s.index + 1, s.line, s.col⟩ := by
        intro t
        rw [mem_tokensOf_some rfl]
        simp
      have hold : ∀ t : Token, t ∈ s.revTokens → t ∈ tokensOf s :=
        fun t ht => (mem_tokensOf_some hl).mpr (Or.inl ht)
      have hltmem : lt ∈ tokensOf s := (mem_tokensOf_some hl).mpr (Or.inr rfl)
      have hltEnd : lt.endPos = s.index := inv.lastEnd lt hl
      have hltStart : lt.start < lt.endPos := inv.lastStart lt hl
      constructor
      · exact hlen
      · intro t ht
        rcases (hmem t).mp ht with h | rfl
        · rcases h with rfl | h
          · rw [retagKeyword_start]
            exact Nat.lt_succ_of_lt (inv.startIdx lt hltmem)
          · exact Nat.lt_succ_of_lt (inv.startIdx t (hold t h))
        · exact Nat.lt_succ_self _
      · intro u hu
        cases hu
        rfl
      · intro u hu
        cases hu
        exact Nat.lt_succ_self _
      · intro u hu
        cases hu
        refine ⟨c, ?_, hnl, rfl⟩
        rw [hidx1]
        exact hc
      · intro hcon
        exact Option.noConfusion hcon
      · intro j a b hj ha hb hna hnb hdis hcls
        have hj2 : j + 1 < s.index + 1 := hj
        by_cases hjold : j + 1 < s.index
        · obtain ⟨t, htm, ht1, ht2⟩ := inv.pairs j a b hjold ha hb hna hnb hdis hcls
          rcases (mem_tokensOf_some hl).mp htm with h | heq
          · exact ⟨t, (hmem t).mpr (Or.inl (Or.inr h)), ht1, ht2⟩
          · refine ⟨retagKeyword lt, (hmem _).mpr (Or.inl (Or.inl rfl)), ?_, ?_⟩
            · rw [retagKeyword_start, ← heq]
              exact ht1
            · rw [retagKeyword_endPos, ← heq]
              exact ht2
        · exfalso
          have hji : j + 1 = s.index := by omega
          obtain ⟨cp, hcp, hcpn, hcpd⟩ := inv.lastChar lt hl
          have hprev : s.index - 1 = j := by omega
          rw [hprev] at hcp
          have hacp : a = cp := Option.some_inj.mp (ha.symm.trans hcp)
          have hbc : b = c := by
            rw [hji] at hb
            exact Option.some_inj.mp (hb.symm.trans hc)
          have hltd : lt.type = charDispatch c := by
            rw [← hcpd, ← hacp, hdis, hbc]
          have hcls2 : lt.type = TokenType.whitespace ∨ lt.type = TokenType.word := by
            rw [← hcpd, ← hacp]
            exact hcls
          apply hcond
          have hbeq1 : (lt.type == charDispatch c) = true := by simp [hltd]
          have hbeq2 : (lt.type == TokenType.whitespace ||
              lt.type == TokenType.word) = true := by
            rcases hcls2 with h2 | h2 <;> simp [h2]
          rw [hbeq1, hbeq2]
          rfl
      · intro j a hj ha hsg
        have hj2 : j < s.index + 1 := hj
        by_cases hjold : j < s.index
        · obtain ⟨t, htm, ht1, ht2, ht3⟩ := inv.signSingle j a hjold ha hsg
          rcases (mem_tokensOf_some hl).mp htm with h | heq
          · exact ⟨t, (hmem t).mpr (Or.inl (Or.inr h)), ht1, ht2, ht3⟩
          · have hsgn : lt.type = TokenType.sign := by rw [← heq]; exact ht3
            have hlen1 : lt.value.length = 1 := inv.signLen lt hltmem hsgn
            have hkf : isKeyword lt.value = false := by
              by_contra hk
              have hk2 : isKeyword lt.value = true := by simpa using hk
              have := isKeyword_length hk2
              omega
            have hr : retagKeyword lt = lt := by
              simp [retagKeyword, hkf]
            refine ⟨retagKeyword lt, (hmem _).mpr (Or.inl (Or.inl rfl)), ?_, ?_, ?_⟩
            · rw [hr, ← heq]
              exact ht1
            · rw [hr, ← heq]
              exact ht2
            · rw [hr, hsgn]
        · have hji : j = s.index := by omega
          subst hji
          have hac : a = c := Option.some_inj.mp (ha.symm.trans hc)
          subst hac
          exact ⟨_, (hmem _).mpr (Or.inr rfl), rfl, rfl, sign_dispatch hsg⟩
      · intro t ht htype
        rcases (hmem t).mp ht with h | rfl
        · rcases h with rfl | h
          · have hsgn : lt.type = TokenType.sign := by
              unfold retagKeyword at htype
              by_cases hk : isKeyword lt.value = true
              · rw [if_pos hk] at htype
                exact absurd htype (by simp)
              · rwa [if_neg hk] at htype
            rw [retagKeyword_value]
            exact inv.signLen lt hltmem hsgn
          · exact inv.signLen t (hold t h) htype
        · rfl



/-- The positional invariant is preserved by the whole scan, which consumes
the input exactly. -/
theorem posInv_run (input : List Char) :
    ∀ (cs : List Char) (s : TokState), PosInv input s → cs = input.drop s.index →
      PosInv input (tokenizerRun cs s) ∧ input.length ≤ (tokenizerRun cs s).index := by
  intro cs s
  induction cs, s using tokenizerRun.induct with
  | case1 s =>
    intro inv hrest
    exact ⟨inv, List.drop_eq_nil_iff.mp hrest.symm⟩
  | case2 c s h c2 rest2 h2 ih =>
    intro inv hrest
    rw [tokenizerRun.eq_def]
    simp only [h, h2, if_true]
    apply ih
    · apply posInv_pushNewLine input s 2 (by omega) inv
      intro m hm
      have hm2 : m = 0 ∨ m = 1 := by omega
      rcases hm2 with rfl | rfl
      · refine ⟨c, ?_, h⟩
        have hg := List.getElem?_drop input s.index 0
        rw [← hrest] at hg
        simpa using hg.symm
      · refine ⟨c2, ?_, ?_⟩
        · have hg := List.getElem?_drop input s.index 1
          rw [← hrest] at hg
          simpa using hg.symm
        · simp only [Bool.and_eq_true] at h2
          exact h2.2
    · show rest2 = input.drop (s.index + 2)
      have hdd := List.drop_drop 2 s.index input
      rw [← hdd, ← hrest]
      rfl
  | case3 c s h c2 rest2 h2 ih =>
    intro inv hrest
    rw [tokenizerRun.eq_def]
    simp only [h, if_true]
    rw [if_neg h2]
    apply ih
    · apply posInv_pushNewLine input s 1 (by omega) inv
      intro m hm
      have hm2 : m = 0 := by omega
      subst hm2
      refine ⟨c, ?_, h⟩
      have hg := List.getElem?_drop input s.index 0
      rw [← hrest] at hg
      simpa using hg.symm
    · show c2 :: rest2 = input.drop (s.index + 1)
      have hdd := List.drop_drop 1 s.index input
      rw [← hdd, ← hrest]
      rfl
  | case4 c s h ih =>
    intro inv hrest
    rw [tokenizerRun.eq_def]
    simp only [h, if_true]
    apply ih
    · apply posInv_pushNewLine input s 1 (by omega) inv
      intro m hm
      have hm2 : m = 0 := by omega
      subst hm2
      refine ⟨c, ?_, h⟩
      have hg := List.getElem?_drop input s.index 0
      rw [← hrest] at hg
      simpa using hg.symm
    · show ([] : List Char) = input.drop (s.index + 1)
      have hdd := List.drop_drop 1 s.index input
      rw [← hdd, ← hrest]
      rfl
  | case5 c rest s h ih =>
    intro inv hrest
    rw [tokenizerRun.eq_def]
    simp only [Bool.not_eq_true] at h
    simp only [h, Bool.false_eq_true, if_false]
    have hc : input[s.index]? = some c := by
      have hg := List.getElem?_drop input s.index 0
      rw [← hrest] at hg
      simpa using hg.symm
    apply ih
    · exact posInv_pushToken input s c hc h inv
    · show rest = input.drop ((pushToken s (charDispatch c) c).index)
      have hpi : (pushToken s (charDispatch c) c).index = s.index + 1 := by
        cases hl : s.last with
        | none => simp [pushToken, hl]
        | some lt =>
          simp only [pushToken, hl]
          split <;> rfl
      rw [hpi]
      have hdd := List.drop_drop 1 s.index input
      rw [← hdd, ← hrest]
      rfl

/-- C7, confirmed.  Two adjacent input characters that both classify as
Word (or both as Whitespace) — neither being a line-break character, which
would separate them — end up inside one single token of `tokenize`'s
output (a token whose span covers both positions), while two adjacent Sign
characters always produce two separate single-character Sign tokens, one
starting at each position. -/
theorem c7_adjacent (input : String) (j : Nat) (a b : Char)
    (ha : input.data[j]? = some a) (hb : input.data[j + 1]? = some b) :
    ((isNewLine a = false ∧ isNewLine b = false ∧ charDispatch a = charDispatch b ∧
        (charDispatch a = TokenType.whitespace ∨ charDispatch a = TokenType.word)) →
      ∃ t ∈ tokenizer input, t.start ≤ j ∧ j + 1 < t.endPos) ∧
    ((isSign a = true ∧ isSign b = true) →
      (∃ t ∈ tokenizer input, t.start = j ∧ t.endPos = j + 1 ∧ t.type = TokenType.sign) ∧
      (∃ u ∈ tokenizer input, u.start = j + 1 ∧ u.endPos = j + 2 ∧
        u.type = TokenType.sign)) := by
  obtain ⟨inv, hix⟩ := posInv_run input.data input.data initTokState (posInv_init _) rfl
  have hjb : j + 1 < input.data.length := (List.getElem?_eq_some.mp hb).1
  have hfinal : j + 1 < (tokenizerRun input.data initTokState).index := by omega
  constructor
  · rintro ⟨h1, h2, h3, h4⟩
    exact inv.pairs j a b hfinal ha hb h1 h2 h3 h4
  · rintro ⟨h1, h2⟩
    exact ⟨inv.signSingle j a (by omega) ha h1,
      inv.signSingle (j + 1) b (by omega) hb h2⟩

/-- C7, witness: in `tokenize("ab")` the two Word characters share one
token. -/
theorem c7_adjacent_witness :
    ∃ t ∈ tokenizer "ab", t.start ≤ 0 ∧ 0 + 1 < t.endPos :=
  (c7_adjacent "ab" 0 'a' 'b' rfl rfl).1 ⟨rfl, rfl, rfl, Or.inr rfl⟩


end Vioreto
